import Mathlib

/-!
Verification of the SISRS repository scripts.

Two units are embedded here, following the two source files:

* the Locus Regrouper (genealign_from_allgenes.py): reads per-species FASTA
  files, rewrites record identifiers and regroups records by a derived locus
  key, then writes one output file per locus;
* the Pipeline Verifier (test_sisrs.py): a test harness that clears an output
  directory, shells out to external commands, and compares files/directories.

Sequence parsing (Bio.SeqIO), file comparison (filecmp) and subprocess
invocation are external collaborators of the scripts; they are modelled at
the level of their documented contracts, while every line of logic written
in the repository itself is translated directly.
-/

namespace Sisrs

/-- A sequence record as handled by the script: an identifier and sequence
data (Bio.SeqRecord).  Identifiers are manipulated as character lists, the
way the script does with list(seq_record.id). -/
structure SeqRec where
  id : List Char
  seq : List Char
deriving DecidableEq

/-- os.path.basename for POSIX paths: the part of the path after the last
slash. -/
def basenameChars (p : List Char) : List Char :=
  (p.reverse.takeWhile (fun c => c != '/')).reverse

/-- The species label computed by the script:
os.path.basename(os.path.splitext(species)[0]).  splitext removes the part
of the basename from its last dot on, provided some earlier character of the
basename is not a dot (leading dots are not an extension), so the
composition strips the extension from the basename. -/
def speciesLabel (p : List Char) : List Char :=
  let b := basenameChars p
  let revb := b.reverse
  let afterDot := revb.takeWhile (fun c => c != '.')
  if afterDot.length = revb.length then b
  else
    let pre := (revb.drop (afterDot.length + 1)).reverse
    if pre.all (fun c => c == '.') then b else pre

/-- Python list.pop(-2): remove and return the next-to-last element.
Raises IndexError (here: none) when the list has fewer than two
elements. -/
def popPenultimate (cs : List Char) : Option (Char × List Char) :=
  match cs.reverse with
  | z :: y :: rest => some (y, (z :: rest).reverse)
  | _ => none

/-- Python list.pop(): remove and return the last element.  Raises
IndexError (here: none) on an empty list. -/
def popLast (cs : List Char) : Option (Char × List Char) :=
  match cs.reverse with
  | z :: rest => some (z, rest.reverse)
  | _ => none

/-- The per-record body of read_resort.  Given the species path and
numalleles, it produces the locus key (the variable gene after the pops,
rejoined) and the record with its rewritten identifier (the joined allele
list).  none models the IndexError raised by the pops on a too-short
identifier. -/
def processRecord (species : List Char) (numalleles : Int) (r : SeqRec) :
    Option (List Char × SeqRec) :=
  if 1 < numalleles then
    match popPenultimate r.id with
    | none => none
    | some (t1, rest1) =>
      match popLast rest1 with
      | none => none
      | some (t2, gene) =>
        some (gene, ⟨speciesLabel species ++ ['_', t1, t2], r.seq⟩)
  else
    some (r.id, ⟨speciesLabel species, r.seq⟩)

/-- The grouping dictionary gene -> accumulated records, kept as an
association list in key insertion order. -/
abbrev SeqDict := List (List Char × List SeqRec)

/-- The two lines: if gene not in seqdict: seqdict[gene]=list();
seqdict[gene].append(seq_record). -/
def dictAppend (d : SeqDict) (k : List Char) (r : SeqRec) : SeqDict :=
  if d.any (fun p => p.1 = k) then
    d.map (fun p => if p.1 = k then (p.1, p.2 ++ [r]) else p)
  else d ++ [(k, [r])]

/-- read_resort(species, seqdict, numalleles).  The records iterated over
come from SeqIO.parse(f, "fasta") where f is the module-level global bound
by the main loop, NOT from the species parameter; the embedding therefore
takes the parsed records of the global f as the separate argument
fRecords.  The species parameter is only used to build the rewritten
identifier. -/
def read_resort (fRecords : List SeqRec) (species : List Char)
    (seqdict : SeqDict) (numalleles : Int) : Option SeqDict :=
  match fRecords with
  | [] => some seqdict
  | r :: rs =>
    match processRecord species numalleles r with
    | none => none
    | some (k, r2) => read_resort rs species (dictAppend seqdict k r2) numalleles

/-- One input species file: its path together with the records SeqIO.parse
yields for it (FASTA parsing is delegated to Biopython). -/
abbrev FastaFile := List Char × List SeqRec

/-- The main loop: for f in fafiles: seqdict = read_resort(f, seqdict,
int(sys.argv[1])).  Note the same f is passed as species and read (via the
global) for its records. -/
def buildDict : List FastaFile → Int → SeqDict → Option SeqDict
  | [], _, d => some d
  | (p, recs) :: rest, n, d =>
    match read_resort recs p d n with
    | none => none
    | some d2 => buildDict rest n d2

/-- The output file name for a locus group: gene + ".fa" (within the loci
directory). -/
def outFileName (gene : List Char) : List Char := gene ++ (".fa").toList

/-- The output loop: for gene, records in seqdict.iteritems():
SeqIO.write(records, ... + gene + ".fa", "fasta").  An output is a file
name together with the records written to it. -/
def writeOutputs (d : SeqDict) : List (List Char × List SeqRec) :=
  d.map (fun p => (outFileName p.1, p.2))

/-- The whole Locus Regrouper run: build the dictionary from the input
files (seqdict starts empty), then write one file per locus key. -/
def genealign (numalleles : Int) (files : List FastaFile) :
    Option (List (List Char × List SeqRec)) :=
  (buildDict files numalleles []).map writeOutputs

/-!
## Pipeline Verifier (test_sisrs.py)

A directory is modelled as an association list from file name to file
contents; os.listdir returns the names in directory order, which is the
list order here.
-/

/-- A directory: file names with their byte contents. -/
abbrev FsTree := List (String × String)

/-- os.listdir(d): the names of the entries of d. -/
def listdir (d : FsTree) : List String := d.map Prod.fst

/-- filecmp classification of one common name x between d1 and d2 with
shallow=False: 0 when both files exist with equal contents, 1 when both
exist and contents differ, 2 (an error) when either side cannot be
read, in particular when the file is absent on either side. -/
def cmpOne (d1 d2 : FsTree) (x : String) : Nat :=
  match List.lookup x d1, List.lookup x d2 with
  | some c1, some c2 => if c1 = c2 then 0 else 1
  | _, _ => 2

/-- filecmp.cmpfiles(d1, d2, common, shallow=False): the triple
(match, mismatch, errors) classifying each name of common. -/
def cmpfiles (d1 d2 : FsTree) (common : List String) :
    List String × List String × List String :=
  (common.filter (fun x => cmpOne d1 d2 x == 0),
   common.filter (fun x => cmpOne d1 d2 x == 1),
   common.filter (fun x => cmpOne d1 d2 x == 2))

/-- dirs_match(d1, d2): cmpfiles over os.listdir(d1) as the common list,
then len(mismatch) == 0 and len(errors) == 0. -/
def dirs_match (d1 d2 : FsTree) : Bool :=
  let r := cmpfiles d1 d2 (listdir d1)
  (r.2.1.length == 0) && (r.2.2.length == 0)

/-- The state of the output directory path: absent, or present with its
entries. -/
inductive FsDir where
  | absent
  | present (entries : List String)
deriving DecidableEq

/-- os.path.exists(out_base_dir). -/
def path_exists : FsDir → Bool
  | FsDir.absent => false
  | FsDir.present _ => true

/-- shutil.rmtree(out_base_dir): the directory tree is removed. -/
def rmtree : FsDir → FsDir := fun _ => FsDir.absent

/-- The module-level statements of test_sisrs.py: if
os.path.exists(out_base_dir): shutil.rmtree(out_base_dir).  Nothing
recreates the directory. -/
def moduleSetup (s : FsDir) : FsDir :=
  if path_exists s then rmtree s else s

/-- subprocess.check_call on a command whose exit status is exitCode:
returns normally on 0, raises CalledProcessError (here: error) otherwise. -/
def check_call (exitCode : Int) : Except Int Unit :=
  if exitCode = 0 then Except.ok () else Except.error exitCode

/-- run(*args): subprocess.check_call(*args). -/
def run (exitCode : Int) : Except Int Unit := check_call exitCode

/-- subprocess.check_output on a command with the given exit status and
captured output: returns the output on exit 0, raises CalledProcessError
otherwise. -/
def check_output (exitCode : Int) (out : String) : Except Int String :=
  if exitCode = 0 then Except.ok out else Except.error exitCode

/-- bam_match(f1, f2): run the bam diff command; on success return whether
its output is empty.  A non-zero exit of the diff tool propagates as an
error. -/
def bam_match (exitCode : Int) (out : String) : Except Int Bool :=
  (check_output exitCode out).map (fun o => o.length == 0)

/-!
## Derived views used to state properties
-/

/-- The in-order stream of (locus key, rewritten record) pairs produced by
processing the records of one file; none as soon as one record fails. -/
def processFileRecords (species : List Char) (n : Int) :
    List SeqRec → Option (List (List Char × SeqRec))
  | [] => some []
  | r :: rs =>
    match processRecord species n r with
    | none => none
    | some kr => (processFileRecords species n rs).map (fun t => kr :: t)

/-- The in-order stream of (locus key, rewritten record) pairs over all
input files. -/
def processAll : List FastaFile → Int → Option (List (List Char × SeqRec))
  | [], _ => some []
  | (p, recs) :: rest, n =>
    match processFileRecords p n recs with
    | none => none
    | some ps => (processAll rest n).map (fun t => ps ++ t)

/-- Folding dictAppend over a stream of (key, record) pairs. -/
def dictInsertAll (d : SeqDict) : List (List Char × SeqRec) → SeqDict
  | [] => d
  | (k, r) :: qs => dictInsertAll (dictAppend d k r) qs

/-- First value bound to key k in a dictionary. -/
def entry (d : SeqDict) (k : List Char) : Option (List SeqRec) :=
  match d with
  | [] => none
  | (k0, rs) :: d2 => if k0 = k then some rs else entry d2 k

/-- The concrete input of the end-to-end example: human.fa holding one
record with identifier geneA_1_2 and chimp.fa holding one record with
identifier geneA_1_3. -/
def c1files : List FastaFile :=
  [ ((String.toList "loci/human.fa"),
     [⟨String.toList "geneA_1_2", String.toList "ACGT"⟩]),
    ((String.toList "loci/chimp.fa"),
     [⟨String.toList "geneA_1_3", String.toList "TGCA"⟩]) ]

/-!
## Helper lemmas
-/

theorem popPenultimate_append (pre : List Char) (t1 t2 : Char) :
    popPenultimate (pre ++ [t1, t2]) = some (t1, pre ++ [t2]) := by
  unfold popPenultimate
  rw [show (pre ++ [t1, t2]).reverse = t2 :: t1 :: pre.reverse by simp]
  simp

theorem popLast_append (pre : List Char) (t : Char) :
    popLast (pre ++ [t]) = some (t, pre) := by
  unfold popLast
  rw [show (pre ++ [t]).reverse = t :: pre.reverse by simp]
  simp

theorem popPenultimate_none (cs : List Char) (h : cs.length < 2) :
    popPenultimate cs = none := by
  unfold popPenultimate
  cases hrev : cs.reverse with
  | nil => rfl
  | cons z rest =>
    cases rest with
    | nil => rfl
    | cons y rest2 =>
      exfalso
      have hlen : cs.reverse.length = cs.length := by simp
      rw [hrev] at hlen
      simp at hlen
      omega

theorem processRecord_one (species : List Char) (r : SeqRec) :
    processRecord species 1 r = some (r.id, ⟨speciesLabel species, r.seq⟩) := by
  unfold processRecord
  rw [if_neg (by omega)]

theorem processRecord_pops (species : List Char) (n : Int) (r : SeqRec)
    (pre : List Char) (t1 t2 : Char) (hn : 1 < n) (hid : r.id = pre ++ [t1, t2]) :
    processRecord species n r =
      some (pre, ⟨speciesLabel species ++ ['_', t1, t2], r.seq⟩) := by
  unfold processRecord
  rw [if_pos hn, hid, popPenultimate_append]
  simp [popLast_append]

theorem processRecord_short (species : List Char) (n : Int) (r : SeqRec)
    (hn : 1 < n) (hr : r.id.length < 2) :
    processRecord species n r = none := by
  unfold processRecord
  rw [if_pos hn, popPenultimate_none r.id hr]

theorem read_resort_none_of_bad (fRecords : List SeqRec) (species : List Char)
    (d : SeqDict) (n : Int) (r : SeqRec) (hmem : r ∈ fRecords)
    (hbad : processRecord species n r = none) :
    read_resort fRecords species d n = none := by
  induction fRecords generalizing d with
  | nil => cases hmem
  | cons a rs ih =>
    unfold read_resort
    rcases List.mem_cons.mp hmem with heq | htail
    · subst heq
      rw [hbad]
    · cases h : processRecord species n a with
      | none => rfl
      | some kr =>
        obtain ⟨k, r2⟩ := kr
        exact ih _ htail

theorem read_resort_eq (recs : List SeqRec) (species : List Char)
    (d : SeqDict) (n : Int) :
    read_resort recs species d n =
      (processFileRecords species n recs).map (fun ps => dictInsertAll d ps) := by
  induction recs generalizing d with
  | nil => rfl
  | cons r rs ih =>
    unfold read_resort processFileRecords
    cases h : processRecord species n r with
    | none => rfl
    | some kr =>
      obtain ⟨k, r2⟩ := kr
      show read_resort rs species (dictAppend d k r2) n =
        Option.map (fun ps => dictInsertAll d ps)
          (Option.map (fun t => (k, r2) :: t) (processFileRecords species n rs))
      rw [ih]
      cases processFileRecords species n rs with
      | none => rfl
      | some t => rfl

theorem dictInsertAll_append (d : SeqDict) (ps qs : List (List Char × SeqRec)) :
    dictInsertAll d (ps ++ qs) = dictInsertAll (dictInsertAll d ps) qs := by
  induction ps generalizing d with
  | nil => rfl
  | cons q ps2 ih =>
    obtain ⟨k, r⟩ := q
    simpa [dictInsertAll] using ih (dictAppend d k r)

theorem buildDict_eq (files : List FastaFile) (n : Int) (d : SeqDict) :
    buildDict files n d = (processAll files n).map (fun ps => dictInsertAll d ps) := by
  induction files generalizing d with
  | nil => rfl
  | cons f rest ih =>
    obtain ⟨p, recs⟩ := f
    unfold buildDict processAll
    rw [read_resort_eq]
    cases processFileRecords p n recs with
    | none => rfl
    | some ps =>
      show buildDict rest n (dictInsertAll d ps) =
        Option.map (fun qs => dictInsertAll d qs)
          (Option.map (fun t => ps ++ t) (processAll rest n))
      rw [ih]
      cases processAll rest n with
      | none => rfl
      | some t => simp [dictInsertAll_append]

theorem any_key_eq (d : SeqDict) (k : List Char) :
    (d.any fun p => decide (p.1 = k)) = true ↔ k ∈ d.map Prod.fst := by
  simp [List.any_eq_true, List.mem_map]

theorem dictAppend_keys_mem (d : SeqDict) (k : List Char) (r : SeqRec)
    (hk : k ∈ d.map Prod.fst) :
    (dictAppend d k r).map Prod.fst = d.map Prod.fst := by
  unfold dictAppend
  rw [if_pos ((any_key_eq d k).mpr hk), List.map_map]
  apply List.map_congr_left
  intro p _
  simp [Function.comp, apply_ite Prod.fst]

theorem dictAppend_keys_notmem (d : SeqDict) (k : List Char) (r : SeqRec)
    (hk : k ∉ d.map Prod.fst) :
    (dictAppend d k r).map Prod.fst = d.map Prod.fst ++ [k] := by
  unfold dictAppend
  rw [if_neg (fun hc => hk ((any_key_eq d k).mp hc))]
  simp

theorem dictAppend_nodup (d : SeqDict) (k : List Char) (r : SeqRec)
    (h1 : (d.map Prod.fst).Nodup) :
    ((dictAppend d k r).map Prod.fst).Nodup := by
  by_cases hk : k ∈ d.map Prod.fst
  · rw [dictAppend_keys_mem d k r hk]
    exact h1
  · rw [dictAppend_keys_notmem d k r hk]
    simp [List.nodup_append, h1, hk]

theorem dictAppend_keys_superset (d : SeqDict) (k : List Char) (r : SeqRec)
    (x : List Char) (hx : x ∈ d.map Prod.fst) :
    x ∈ (dictAppend d k r).map Prod.fst := by
  by_cases hk : k ∈ d.map Prod.fst
  · rw [dictAppend_keys_mem d k r hk]; exact hx
  · rw [dictAppend_keys_notmem d k r hk]; exact List.mem_append_left _ hx

theorem dictAppend_keys_self (d : SeqDict) (k : List Char) (r : SeqRec) :
    k ∈ (dictAppend d k r).map Prod.fst := by
  by_cases hk : k ∈ d.map Prod.fst
  · rw [dictAppend_keys_mem d k r hk]; exact hk
  · rw [dictAppend_keys_notmem d k r hk]; simp

theorem dictAppend_entry_mem (d : SeqDict) (k : List Char) (r : SeqRec)
    (k2 : List Char) (rs2 : List SeqRec)
    (hmem : (k2, rs2) ∈ dictAppend d k r) :
    (k2 ≠ k ∧ (k2, rs2) ∈ d) ∨
    (k2 = k ∧ ∃ rs1, rs2 = rs1 ++ [r] ∧ (k, rs1) ∈ d) ∨
    (k2 = k ∧ rs2 = [r] ∧ k ∉ d.map Prod.fst) := by
  unfold dictAppend at hmem
  by_cases hk : k ∈ d.map Prod.fst
  · rw [if_pos ((any_key_eq d k).mpr hk)] at hmem
    obtain ⟨p, hp, hpe⟩ := List.mem_map.mp hmem
    by_cases hpk : p.1 = k
    · rw [if_pos hpk] at hpe
      have hk2 : p.1 = k2 := congrArg Prod.fst hpe
      have hrs : p.2 ++ [r] = rs2 := congrArg Prod.snd hpe
      refine Or.inr (Or.inl ⟨by rw [← hk2, hpk], p.2, hrs.symm, ?_⟩)
      have : p = (k, p.2) := by
        rw [← hpk]
      rw [← this]
      exact hp
    · rw [if_neg hpk] at hpe
      subst hpe
      exact Or.inl ⟨hpk, hp⟩
  · rw [if_neg (fun hc => hk ((any_key_eq d k).mp hc))] at hmem
    rcases List.mem_append.mp hmem with hin | hone
    · refine Or.inl ⟨?_, hin⟩
      intro hc
      subst hc
      exact hk (List.mem_map.mpr ⟨(k2, rs2), hin, rfl⟩)
    · have : (k2, rs2) = (k, [r]) := List.mem_singleton.mp hone
      have hk2 : k2 = k := congrArg Prod.fst this
      have hrs : rs2 = [r] := congrArg Prod.snd this
      exact Or.inr (Or.inr ⟨hk2, hrs, hk⟩)

theorem dictAppend_inv (ps : List (List Char × SeqRec)) (d : SeqDict)
    (k : List Char) (r : SeqRec)
    (h1 : (d.map Prod.fst).Nodup)
    (h2 : ∀ k2 rs2, (k2, rs2) ∈ d →
        rs2 = (ps.filter (fun q => decide (q.1 = k2))).map Prod.snd)
    (h3 : ∀ q ∈ ps, q.1 ∈ d.map Prod.fst) :
    ((dictAppend d k r).map Prod.fst).Nodup ∧
    (∀ k2 rs2, (k2, rs2) ∈ dictAppend d k r →
        rs2 = ((ps ++ [(k, r)]).filter (fun q => decide (q.1 = k2))).map Prod.snd) ∧
    (∀ q ∈ ps ++ [(k, r)], q.1 ∈ (dictAppend d k r).map Prod.fst) := by
  refine ⟨dictAppend_nodup d k r h1, ?_, ?_⟩
  · intro k2 rs2 hm
    rcases dictAppend_entry_mem d k r k2 rs2 hm with
      ⟨hne, hmem2⟩ | ⟨heq, rs1, hrs, hmem2⟩ | ⟨heq, hrs, hkey⟩
    · rw [List.filter_append]
      have hfk : ([(k, r)].filter (fun q => decide (q.1 = k2))) = [] := by
        simp [Ne.symm hne]
      rw [hfk, List.append_nil]
      exact h2 k2 rs2 hmem2
    · rw [List.filter_append]
      have hfk : ([(k, r)].filter (fun q => decide (q.1 = k2))) = [(k, r)] := by
        simp [heq]
      rw [hfk, List.map_append, hrs, h2 k2 rs1 (heq.symm ▸ hmem2)]
      rfl
    · rw [List.filter_append]
      have hfil : (ps.filter (fun q => decide (q.1 = k2))) = [] := by
        rw [List.filter_eq_nil_iff]
        intro q hq
        simp only [decide_eq_true_eq]
        intro hc
        have : k ∈ d.map Prod.fst := by
          rw [← heq, ← hc]
          exact h3 q hq
        exact hkey this
      rw [hfil]
      have hfk : ([(k, r)].filter (fun q => decide (q.1 = k2))) = [(k, r)] := by
        simp [heq]
      rw [hfk]
      simp [hrs]
  · intro q hq
    rcases List.mem_append.mp hq with hin | hone
    · exact dictAppend_keys_superset d k r q.1 (h3 q hin)
    · have : q = (k, r) := List.mem_singleton.mp hone
      rw [this]
      exact dictAppend_keys_self d k r

theorem dictInsertAll_inv (qs : List (List Char × SeqRec)) :
    ∀ (ps : List (List Char × SeqRec)) (d : SeqDict),
      (d.map Prod.fst).Nodup →
      (∀ k2 rs2, (k2, rs2) ∈ d →
          rs2 = (ps.filter (fun q => decide (q.1 = k2))).map Prod.snd) →
      (∀ q ∈ ps, q.1 ∈ d.map Prod.fst) →
      ((dictInsertAll d qs).map Prod.fst).Nodup ∧
      (∀ k2 rs2, (k2, rs2) ∈ dictInsertAll d qs →
          rs2 = ((ps ++ qs).filter (fun q => decide (q.1 = k2))).map Prod.snd) ∧
      (∀ q ∈ ps ++ qs, q.1 ∈ (dictInsertAll d qs).map Prod.fst) := by
  induction qs with
  | nil =>
    intro ps d h1 h2 h3
    refine ⟨h1, ?_, ?_⟩
    · intro k2 rs2 hm
      rw [List.append_nil]
      exact h2 k2 rs2 hm
    · intro q hq
      rw [List.append_nil] at hq
      exact h3 q hq
  | cons q qs2 ih =>
    intro ps d h1 h2 h3
    obtain ⟨k, r⟩ := q
    obtain ⟨g1, g2, g3⟩ := dictAppend_inv ps d k r h1 h2 h3
    have hres := ih (ps ++ [(k, r)]) (dictAppend d k r) g1 g2 g3
    rw [List.append_assoc] at hres
    exact hres

theorem modify_flatten (d : SeqDict) (k : List Char) (r : SeqRec)
    (h1 : (d.map Prod.fst).Nodup) (hk : k ∈ d.map Prod.fst) :
    (((d.map (fun p => if p.1 = k then (p.1, p.2 ++ [r]) else p)).map Prod.snd).flatten).Perm
      (((d.map Prod.snd).flatten) ++ [r]) := by
  induction d with
  | nil => simp at hk
  | cons p tl ih =>
    obtain ⟨k1, rs1⟩ := p
    have h1c : (k1 :: tl.map Prod.fst).Nodup := by simpa using h1
    by_cases hp : k1 = k
    · subst hp
    -- the head is the unique entry carrying the key, so the tail is untouched
      have hhead : k1 ∉ tl.map Prod.fst := (List.nodup_cons.mp h1c).1
      have hnotl : ∀ q ∈ tl, q.1 ≠ k1 := by
        intro q hq hc
        exact hhead (List.mem_map.mpr ⟨q, hq, hc⟩)
      have htl : tl.map (fun p => if p.1 = k1 then (p.1, p.2 ++ [r]) else p) = tl := by
        have h : tl.map (fun p => if p.1 = k1 then (p.1, p.2 ++ [r]) else p) = tl.map id :=
          List.map_congr_left (fun q hq => by simp [hnotl q hq])
        simpa using h
      simp only [List.map_cons, if_pos rfl, htl]
      have hcomm : (([r] ++ (tl.map Prod.snd).flatten).Perm
          ((tl.map Prod.snd).flatten ++ [r])) := List.perm_append_comm
      simpa [List.append_assoc] using List.Perm.append_left rs1 hcomm
    · have hkc : k ∈ k1 :: tl.map Prod.fst := by simpa using hk
      have hktl : k ∈ tl.map Prod.fst := by
        rcases List.mem_cons.mp hkc with hc | hc
        · exact absurd hc.symm hp
        · exact hc
      have htlnodup : (tl.map Prod.fst).Nodup := (List.nodup_cons.mp h1c).2
      have := ih htlnodup hktl
      simp only [List.map_cons, if_neg hp]
      simpa [List.append_assoc] using List.Perm.append_left rs1 this

theorem dictAppend_flatten (d : SeqDict) (k : List Char) (r : SeqRec)
    (h1 : (d.map Prod.fst).Nodup) :
    (((dictAppend d k r).map Prod.snd).flatten).Perm
      (((d.map Prod.snd).flatten) ++ [r]) := by
  unfold dictAppend
  by_cases hk : k ∈ d.map Prod.fst
  · rw [if_pos ((any_key_eq d k).mpr hk)]
    exact modify_flatten d k r h1 hk
  · rw [if_neg (fun hc => hk ((any_key_eq d k).mp hc))]
    simp

theorem dictInsertAll_flatten (qs : List (List Char × SeqRec)) :
    ∀ d : SeqDict, (d.map Prod.fst).Nodup →
      (((dictInsertAll d qs).map Prod.snd).flatten).Perm
        (((d.map Prod.snd).flatten) ++ qs.map Prod.snd) := by
  induction qs with
  | nil =>
    intro d _
    simp [dictInsertAll]
  | cons q qs2 ih =>
    intro d h1
    obtain ⟨k, r⟩ := q
    have h2 := dictAppend_nodup d k r h1
    have hrec := ih (dictAppend d k r) h2
    have hstep := List.Perm.append_right (qs2.map Prod.snd) (dictAppend_flatten d k r h1)
    have := hrec.trans hstep
    simpa [dictInsertAll, List.append_assoc] using this

/-!
## Claims
-/

/-- Claim C1, counterexample.  On the example input (human.fa with record
geneA_1_2, chimp.fa with record geneA_1_3, numalleles = 2) the run
produces exactly one output file, and its name is geneA_1.fa, not the
geneA.fa the claim asserts: list.pop(-2) pops the second-to-last character
of geneA_1_2, which is the underscore, so the locus key keeps geneA_1 and
the rewritten identifiers are human__2 and chimp__3. -/
theorem regroup_example_counterexample :
    (genealign 2 c1files).map (fun outs => outs.map Prod.fst) =
      some [String.toList "geneA_1.fa"] ∧
    String.toList "geneA_1.fa" ≠ String.toList "geneA.fa" := by
  constructor
  · rfl
  · decide

/-- Claim C1, amended: with numalleles = 2, human.fa holding the record
geneA_1_2 and chimp.fa holding geneA_1_3, the run produces the single
output file geneA_1.fa whose two records carry identifiers human__2 and
chimp__3, in the order the input files were processed. -/
theorem regroup_example_amended :
    genealign 2 c1files =
      some [(String.toList "geneA_1.fa",
             [⟨String.toList "human__2", String.toList "ACGT"⟩,
              ⟨String.toList "chimp__3", String.toList "TGCA"⟩])] := by
  rfl

/-- Claim C2, counterexample.  dirs_match runs cmpfiles over the listing
of the FIRST directory only, so a file present in d2 but absent from d1
is never examined: with d1 empty and d2 holding file a, the check passes
even though the two name sets differ. -/
theorem dirs_match_counterexample :
    dirs_match [] [("a", "x")] = true ∧
    "a" ∈ listdir [("a", "x")] ∧ "a" ∉ listdir ([] : FsTree) := by
  refine ⟨rfl, ?_, ?_⟩ <;> simp [listdir]

/-- Claim C2, amended: dirs_match compares, for every file name in the
listing of d1, the contents of that file in both directories; it passes
exactly when every such file exists on both sides with equal contents.
A file in d1 that is missing from d2 is an error and fails the check;
a file present only in d2 is not examined and cannot fail it. -/
theorem dirs_match_characterization (d1 d2 : FsTree) :
    dirs_match d1 d2 = true ↔
      ∀ x ∈ listdir d1,
        ∃ c, List.lookup x d1 = some c ∧ List.lookup x d2 = some c := by
  have hzero : ∀ x, cmpOne d1 d2 x = 0 ↔
      ∃ c, List.lookup x d1 = some c ∧ List.lookup x d2 = some c := by
    intro x
    unfold cmpOne
    cases hl1 : List.lookup x d1 with
    | none => simp
    | some c1 =>
      cases hl2 : List.lookup x d2 with
      | none => simp
      | some c2 =>
        by_cases hc : c1 = c2
        · simp [hc]
        · show (if c1 = c2 then (0 : Nat) else 1) = 0 ↔
            ∃ c, some c1 = some c ∧ some c2 = some c
          rw [if_neg hc]
          constructor
          · intro hcon
            exact absurd hcon (by omega)
          · rintro ⟨c, e1, e2⟩
            rw [Option.some_inj] at e1 e2
            exact absurd (e1.trans e2.symm) hc
  have hcases : ∀ x, cmpOne d1 d2 x = 0 ∨ cmpOne d1 d2 x = 1 ∨ cmpOne d1 d2 x = 2 := by
    intro x
    unfold cmpOne
    cases List.lookup x d1 with
    | none => simp
    | some c1 =>
      cases List.lookup x d2 with
      | none => simp
      | some c2 =>
        by_cases hc : c1 = c2
        · simp [hc]
        · simp [hc]
  unfold dirs_match cmpfiles
  simp only [Bool.and_eq_true, beq_iff_eq, List.length_eq_zero,
    List.filter_eq_nil_iff, beq_iff_eq]
  constructor
  · rintro ⟨hm, he⟩ x hx
    rcases hcases x with h0 | h1 | h2
    · exact (hzero x).mp h0
    · exact absurd h1 (hm x hx)
    · exact absurd h2 (he x hx)
  · intro h
    constructor
    · intro x hx
      have h0 := (hzero x).mpr (h x hx)
      omega
    · intro x hx
      have h0 := (hzero x).mpr (h x hx)
      omega

/-- Claim C3, counterexample.  The module-level code of the test harness
removes the output directory when it exists but never recreates it, so
after the setup the directory is absent, not present-and-empty as the
claim states. -/
theorem output_dir_counterexample :
    moduleSetup (FsDir.present ["stale"]) = FsDir.absent ∧
    FsDir.absent ≠ FsDir.present ([] : List String) := by
  refine ⟨rfl, ?_⟩
  intro hc
  cases hc

/-- Claim C3, amended: before running any check the harness deletes the
output directory when it exists; nothing recreates it, so at the start of
a run the output directory does not exist. -/
theorem output_dir_deleted (s : FsDir) :
    path_exists (moduleSetup s) = false := by
  cases s <;> rfl

/-- Claim C4: when numalleles > 1 and a record identifier has at least two
characters, the two popped tokens are the second-to-last and last
characters; the rewritten identifier is the species base name, an
underscore and the two popped characters, and the remaining identifier
characters, rejoined, are the locus key. -/
theorem identifier_rewrite_multi (species : List Char) (n : Int) (r : SeqRec)
    (pre : List Char) (t1 t2 : Char) (hn : 1 < n) (hid : r.id = pre ++ [t1, t2]) :
    processRecord species n r =
      some (pre, ⟨speciesLabel species ++ ['_', t1, t2], r.seq⟩) :=
  processRecord_pops species n r pre t1 t2 hn hid

/-- Witness for claim C4 at a concrete record. -/
theorem identifier_rewrite_multi_witness :
    (1 : Int) < 2 ∧
    processRecord (String.toList "loci/human.fa") 2
        ⟨String.toList "geneA_1_2", String.toList "ACGT"⟩ =
      some (String.toList "geneA_1",
        ⟨speciesLabel (String.toList "loci/human.fa") ++ ['_', '_', '2'],
         String.toList "ACGT"⟩) :=
  ⟨by decide,
   identifier_rewrite_multi (String.toList "loci/human.fa") 2
     ⟨String.toList "geneA_1_2", String.toList "ACGT"⟩
     (String.toList "geneA_1") '_' '2' (by decide) (by decide)⟩

/-- Claim C5: when numalleles = 1 the rewritten identifier is exactly the
species base name (no allele suffix) and the locus key is the original
identifier unchanged. -/
theorem identifier_rewrite_single (species : List Char) (r : SeqRec) :
    processRecord species 1 r = some (r.id, ⟨speciesLabel species, r.seq⟩) :=
  processRecord_one species r

/-- Claim C7: regrouping is deterministic; two runs on identical
numalleles and identical input files produce identical outputs.  In this
purely functional embedding determinism is inherited from genealign being
a function of its inputs. -/
theorem genealign_deterministic (n1 n2 : Int) (files1 files2 : List FastaFile)
    (hn : n1 = n2) (hf : files1 = files2) :
    genealign n1 files1 = genealign n2 files2 := by
  rw [hn, hf]

/-- Witness for claim C7 on the concrete example input. -/
theorem genealign_deterministic_witness :
    genealign 2 c1files = genealign 2 c1files :=
  genealign_deterministic 2 2 c1files c1files rfl rfl

/-- Claim C8: a non-zero exit status of an invoked external command makes
both run (check_call) and bam_match (check_output) propagate an error; no
success value is ever reported. -/
theorem nonzero_exit_fails (exitCode : Int) (out : String) (h : exitCode ≠ 0) :
    run exitCode = Except.error exitCode ∧
    bam_match exitCode out = Except.error exitCode := by
  constructor <;> simp [run, check_call, bam_match, check_output, Except.map, h]

/-- Witness for claim C8 at exit status 1. -/
theorem nonzero_exit_fails_witness :
    run 1 = Except.error 1 ∧ bam_match 1 "" = Except.error 1 :=
  nonzero_exit_fails 1 "" (by decide)

/-- Claim C9: with numalleles > 1, a record whose identifier has fewer
than two characters makes read_resort fail with the pop IndexError
(modelled as none); an identifier of exactly two characters yields the
empty locus key, whose output file name is just the format extension
.fa. -/
theorem short_identifier_cases (species : List Char) (n : Int) (hn : 1 < n) :
    (∀ (fRecords : List SeqRec) (d : SeqDict) (r : SeqRec),
        r ∈ fRecords → r.id.length < 2 →
        read_resort fRecords species d n = none) ∧
    (∀ (r : SeqRec) (a b : Char), r.id = [a, b] →
        processRecord species n r =
          some ([], ⟨speciesLabel species ++ ['_', a, b], r.seq⟩) ∧
        outFileName [] = String.toList ".fa") := by
  constructor
  · intro fr d r hmem hlen
    exact read_resort_none_of_bad fr species d n r hmem
      (processRecord_short species n r hn hlen)
  · intro r a b hid
    exact ⟨processRecord_pops species n r [] a b hn (by simpa using hid), rfl⟩

/-- Witness for claim C9: a one-character identifier aborts the read, a
two-character identifier lands in the file named .fa. -/
theorem short_identifier_witness :
    read_resort [⟨['x'], []⟩] (String.toList "s.fa") [] 2 = none ∧
    processRecord (String.toList "s.fa") 2 ⟨['a', 'b'], []⟩ =
      some ([], ⟨speciesLabel (String.toList "s.fa") ++ ['_', 'a', 'b'], []⟩) := by
  have h := short_identifier_cases (String.toList "s.fa") 2 (by decide)
  exact ⟨h.1 [⟨['x'], []⟩] [] ⟨['x'], []⟩ (List.mem_singleton.mpr rfl) (by decide),
         (h.2 ⟨['a', 'b'], []⟩ 'a' 'b' rfl).1⟩

/-- Claim C10: read_resort takes its records from the file bound to the
module-level global f (the fRecords argument of the embedding) and uses
its species parameter only to derive the label of the rewritten
identifiers: the result is exactly the records of fRecords, grouped under
their own identifiers, each relabelled with the base name of species.
Calling it with a species path different from the globally bound file
therefore labels the records of one file with the name of the other. -/
theorem read_resort_reads_global (fRecords : List SeqRec) (species : List Char)
    (d : SeqDict) :
    read_resort fRecords species d 1 =
      some (dictInsertAll d
        (fRecords.map (fun r => (r.id, ⟨speciesLabel species, r.seq⟩)))) := by
  induction fRecords generalizing d with
  | nil => rfl
  | cons r rs ih =>
    show (match processRecord species 1 r with
      | none => none
      | some (k, r2) => read_resort rs species (dictAppend d k r2) 1) =
      some (dictInsertAll d
        (((r :: rs)).map (fun r => (r.id, ⟨speciesLabel species, r.seq⟩))))
    rw [processRecord_one]
    exact ih (dictAppend d r.id ⟨speciesLabel species, r.seq⟩)

/-- Claim C6: on any input whose records all process successfully (stream
ps of (locus key, rewritten record) pairs), the run succeeds and each
output locus file receives exactly the records of its key, in stream
order; output file names are pairwise distinct and every record appears
in some file, so every input record lands in exactly one output file,
none dropped and none duplicated, with insertion order preserved. -/
theorem records_partitioned (files : List FastaFile) (n : Int)
    (ps : List (List Char × SeqRec)) (h : processAll files n = some ps) :
    ∃ d, genealign n files = some (writeOutputs d) ∧
      ((writeOutputs d).map Prod.fst).Nodup ∧
      (∀ k rs, (k, rs) ∈ d →
          rs = (ps.filter (fun q => decide (q.1 = k))).map Prod.snd) ∧
      (∀ q ∈ ps, q.1 ∈ d.map Prod.fst) ∧
      (((d.map Prod.snd).flatten).Perm (ps.map Prod.snd)) := by
  obtain ⟨g1, g2, g3⟩ := dictInsertAll_inv ps [] []
    (by simp)
    (by intro k2 rs2 hm; cases hm)
    (by intro q hq; cases hq)
  refine ⟨dictInsertAll [] ps, ?_, ?_, ?_, ?_, ?_⟩
  · unfold genealign
    rw [buildDict_eq, h]
    rfl
  · have hkeys : (writeOutputs (dictInsertAll [] ps)).map Prod.fst
        = ((dictInsertAll [] ps).map Prod.fst).map outFileName := by
      simp [writeOutputs, List.map_map, Function.comp]
    rw [hkeys]
    refine g1.map ?_
    intro a b hab
    exact List.append_left_injective ((".fa").toList) hab
  · intro k rs hm
    have := g2 k rs hm
    rwa [List.nil_append] at this
  · intro q hq
    exact g3 q (by rwa [List.nil_append])
  · have := dictInsertAll_flatten ps [] (by simp)
    simpa using this

/-- Witness for claim C6 on a concrete one-file input. -/
theorem records_partitioned_witness :
    processAll [((String.toList "d/s.fa"),
        [⟨String.toList "g1", String.toList "A"⟩])] 1 =
      some [((String.toList "g1"),
        ⟨String.toList "s", String.toList "A"⟩)] ∧
    ∃ d, genealign 1 [((String.toList "d/s.fa"),
        [⟨String.toList "g1", String.toList "A"⟩])] = some (writeOutputs d) ∧
      ((writeOutputs d).map Prod.fst).Nodup ∧
      (∀ k rs, (k, rs) ∈ d →
          rs = (([((String.toList "g1"),
            ⟨String.toList "s", String.toList "A"⟩)].filter
              (fun q => decide (q.1 = k))).map Prod.snd)) ∧
      (∀ q ∈ [((String.toList "g1"),
          (⟨String.toList "s", String.toList "A"⟩ : SeqRec))],
          q.1 ∈ d.map Prod.fst) ∧
      (((d.map Prod.snd).flatten).Perm
        ([((String.toList "g1"),
          ⟨String.toList "s", String.toList "A"⟩)].map Prod.snd)) :=
  ⟨by decide,
   records_partitioned [((String.toList "d/s.fa"),
       [⟨String.toList "g1", String.toList "A"⟩])] 1
     [((String.toList "g1"), ⟨String.toList "s", String.toList "A"⟩)]
     (by decide)⟩

end Sisrs
